import Mathlib

/-!
Verification development for the khinsider album downloader
(src/khinsider_downloader.py).  Strings are modelled as lists of
characters; the fixed site constants, the filename sanitizer, the
extension extractor, the HTML extractors, the gather-based bounded
orchestrator and the coordinator control flow are shallowly embedded
below, and the spec claims are settled against them.
-/

/-- Strings of the embedded program are lists of characters. -/
abbrev Str : Type := List Char

/-! ### Filename sanitizer (file_name_cleaner, source lines 14-36) -/

/-- Replacement of every occurrence of a single character by a string,
modelling a Python str.replace call whose pattern is one character. -/
def replaceChar (s : Str) (c : Char) (r : Str) : Str :=
  match s with
  | [] => []
  | x :: xs => (if x = c then r else [x]) ++ replaceChar xs c r

/-- Characters banned in Windows file names, as listed in the source. -/
def windows_unusable_characters : List Char :=
  ['<', '>', ':', '"', '/', '\\', '|', '?', '*']

/-- Characters banned in Linux file names, as listed in the source.
The NUL character and the apostrophe are written by code point. -/
def linux_unusable_characters : List Char :=
  ['/', Char.ofNat 0, ':', '\n', '\t', '\r', '?', '*', '|', '>', '<', '"',
    Char.ofNat 39]

/-- Concatenation of both banned lists, mirroring the source. -/
def unusable_characters : List Char :=
  windows_unusable_characters ++ linux_unusable_characters

/-- Sequential replacement of every character of cs inside s, mirroring
the for-loop of file_name_cleaner. -/
def cleanAll (cs : List Char) (r : Str) (s : Str) : Str :=
  match cs with
  | [] => s
  | c :: rest => cleanAll rest r (replaceChar s c r)

/-- Model of file_name_cleaner: replace every banned character by
replace_char, processing the banned characters in source order. -/
def file_name_cleaner (file_name : Str) (replace_char : Str) : Str :=
  cleanAll unusable_characters replace_char file_name

/-- Default replacement string of file_name_cleaner, an underscore. -/
def default_replace : Str := ['_']

/-- The unsafe character set named by the spec: the union of the Windows
and Linux banned lists, without duplicates. -/
def forbidden_name_chars : List Char :=
  ['<', '>', ':', '"', '/', '\\', '|', '?', '*', Char.ofNat 0, '\n', '\t',
    '\r', Char.ofNat 39]

theorem mem_replaceChar {x : Char} {s : Str} {c : Char} {r : Str}
    (h : x ∈ replaceChar s c r) : (x ∈ s ∧ x ≠ c) ∨ x ∈ r := by
  induction s with
  | nil => simp [replaceChar] at h
  | cons y ys ih =>
    simp only [replaceChar, List.mem_append] at h
    rcases h with h | h
    · by_cases hy : y = c
      · rw [if_pos hy] at h
        exact Or.inr h
      · rw [if_neg hy] at h
        simp only [List.mem_singleton] at h
        subst h
        exact Or.inl ⟨List.mem_cons_self _ _, hy⟩
    · rcases ih h with ⟨hs, hne⟩ | hr
      · exact Or.inl ⟨List.mem_cons_of_mem _ hs, hne⟩
      · exact Or.inr hr

theorem mem_cleanAll {x : Char} {L : List Char} {r s : Str}
    (h : x ∈ cleanAll L r s) : x ∈ r ∨ (x ∈ s ∧ x ∉ L) := by
  induction L generalizing s with
  | nil => exact Or.inr ⟨h, by simp⟩
  | cons c cs ih =>
    rcases ih h with hr | ⟨hs, hn⟩
    · exact Or.inl hr
    · rcases mem_replaceChar hs with ⟨hs2, hne⟩ | hr
      · refine Or.inr ⟨hs2, ?_⟩
        simp only [List.mem_cons, not_or]
        exact ⟨hne, hn⟩
      · exact Or.inl hr

/-- Helper: any character of a cleaned name avoids the banned list. -/
theorem clean_no_bad {x : Char} {s : Str}
    (h : x ∈ file_name_cleaner s default_replace) :
    x ∉ unusable_characters := by
  rcases mem_cleanAll h with hr | ⟨_, hn⟩
  · simp only [default_replace, List.mem_singleton] at hr
    subst hr
    decide
  · exact hn

theorem forbidden_sub {x : Char} (h : x ∈ forbidden_name_chars) :
    x ∈ unusable_characters := by
  simp only [forbidden_name_chars, unusable_characters,
    windows_unusable_characters, linux_unusable_characters,
    List.mem_append, List.mem_cons, List.not_mem_nil] at h ⊢
  tauto

/-- C8: for every input string, the output of file_name_cleaner with the
default replacement contains no character of the unsafe set consisting
of angle brackets, colon, double quote, slash, backslash, pipe, question
mark, asterisk, NUL, newline, tab, carriage return and apostrophe. -/
theorem sanitize_no_forbidden (s : Str) (x : Char)
    (h : x ∈ file_name_cleaner s default_replace) :
    x ∉ forbidden_name_chars :=
  fun hx => clean_no_bad h (forbidden_sub hx)

/-- Witness for C8 at the concrete input string a, less-than, b: the
character a survives cleaning and is outside the unsafe set. -/
theorem sanitize_no_forbidden_wit :
    'a' ∈ file_name_cleaner ['a', '<', 'b'] default_replace ∧
      'a' ∉ forbidden_name_chars :=
  ⟨by decide, sanitize_no_forbidden ['a', '<', 'b'] 'a' (by decide)⟩

theorem replaceChar_id {s : Str} {c : Char} {r : Str}
    (h : ∀ x ∈ s, x ≠ c) : replaceChar s c r = s := by
  induction s with
  | nil => rfl
  | cons y ys ih =>
    have hy : y ≠ c := h y (List.mem_cons_self _ _)
    simp only [replaceChar, if_neg hy, List.singleton_append]
    exact congrArg (List.cons y) (ih fun x hx => h x (List.mem_cons_of_mem _ hx))

theorem cleanAll_id {L : List Char} {r s : Str}
    (h : ∀ x ∈ s, x ∉ L) : cleanAll L r s = s := by
  induction L with
  | nil => rfl
  | cons c cs ih =>
    have hstep : replaceChar s c r = s :=
      replaceChar_id fun x hx => by
        have := h x hx
        simp only [List.mem_cons, not_or] at this
        exact this.1
    simp only [cleanAll, hstep]
    exact ih fun x hx => by
      have := h x hx
      simp only [List.mem_cons, not_or] at this
      exact this.2

/-- C9: file_name_cleaner with the default replacement is idempotent:
cleaning an already cleaned name changes nothing. -/
theorem sanitize_idempotent (s : Str) :
    file_name_cleaner (file_name_cleaner s default_replace) default_replace
      = file_name_cleaner s default_replace := by
  show cleanAll unusable_characters default_replace
      (file_name_cleaner s default_replace)
    = file_name_cleaner s default_replace
  exact cleanAll_id fun x hx => clean_no_bad hx

/-! ### Output directory computation (main, source lines 243-251) -/

/-- Path joining as performed by pathlib: an empty right segment is
dropped, so joining with the empty string returns the left path; a
nonempty relative segment is appended after a separator.  The textual
form differs from pathlib only cosmetically (a leading dot component is
kept), never in which directory is denoted. -/
def pathJoin (a b : Str) : Str :=
  if b = [] then a else a ++ ('/' :: b)

/-- Model of the album directory computation of main: the parsed album
title is always a string, so the executed branch joins the save
directory with the cleaned title.  The source assignment of the name
downloaded_album to the variable file_name_cleaned on an empty title is
a dead store: that variable is never read, so it does not appear here. -/
def album_dir_of (save_dir title : Str) : Str :=
  pathJoin save_dir (file_name_cleaner title default_replace)

/-- C1 (code bug, evaluated at the failing input): with the parsed album
title empty and save directory dot, main computes the save directory
itself as the album directory, not the fixed default subdirectory
downloaded_album, because the fallback assignment is to a variable that
is never used. -/
theorem empty_title_default_dir_bug :
    album_dir_of ['.'] [] = ['.'] ∧
      album_dir_of ['.'] [] ≠ pathJoin ['.'] "downloaded_album".toList := by
  constructor
  · rfl
  · decide

/-! ### File extension extraction (get_format_from_link, source lines 38-47) -/

/-- Index of the last occurrence of a character in a string, if any. -/
def lastIdx (s : Str) (c : Char) : Option Nat :=
  match s with
  | [] => none
  | x :: xs =>
    match lastIdx xs c with
    | some i => some (i + 1)
    | none => if x = c then some 0 else none

/-- Python str.rfind: index of the last occurrence, or minus one. -/
def pyRfind (s : Str) (c : Char) : Int :=
  match lastIdx s c with
  | some i => (i : Int)
  | none => -1

/-- Extension component of posixpath.splitext: the suffix from the last
dot, provided that dot lies after the last separator and at least one
character of the base name before it is not itself a dot. -/
def splitext_ext (p : Str) : Str :=
  let sepIdx := pyRfind p '/'
  let dotIdx := pyRfind p '.'
  if dotIdx > sepIdx then
    if (List.range p.length).any (fun j =>
        decide (sepIdx < (j : Int)) && decide ((j : Int) < dotIdx)
          && decide (p.getD j '.' ≠ '.')) then
      p.drop dotIdx.toNat
    else []
  else []

/-- Model of get_format_from_link: the splitext extension with every dot
removed, lowercased character by character. -/
def get_format_from_link (file_url : Str) : Str :=
  ((splitext_ext file_url).filter (fun c => decide (c ≠ '.'))).map Char.toLower

/-! ### Python dictionaries as association lists with unique keys -/

/-- Dictionaries mapping strings to strings. -/
abbrev Dict := List (Str × Str)

/-- Lookup of a key in a dictionary. -/
def dictLookup (d : Dict) (k : Str) : Option Str :=
  match d with
  | [] => none
  | p :: ps => if p.1 = k then some p.2 else dictLookup ps k

/-- Python key-membership test on a dictionary. -/
def dictContains (d : Dict) (k : Str) : Bool :=
  (dictLookup d k).isSome

/-- Insertion into a dictionary: an existing binding of the key is
replaced in place, otherwise the binding is appended. -/
def dictInsert (d : Dict) (k v : Str) : Dict :=
  match d with
  | [] => [(k, v)]
  | p :: ps => if p.1 = k then (k, v) :: ps else p :: dictInsert ps k v

def pyDictAux (acc : Dict) (ps : List (Str × Str)) : Dict :=
  match ps with
  | [] => acc
  | p :: rest => pyDictAux (dictInsert acc p.1 p.2) rest

/-- Python dict built from a pair sequence: bindings are inserted left
to right, so a later pair with a duplicate key overwrites the earlier
value. -/
def pyDict (ps : List (Str × Str)) : Dict := pyDictAux [] ps

/-- Last pair of the sequence carrying the given key, if any. -/
def lastMatch (ps : List (Str × Str)) (k : Str) : Option (Str × Str) :=
  match ps with
  | [] => none
  | p :: rest =>
    match lastMatch rest k with
    | some q => some q
    | none => if p.1 = k then some p else none

theorem dictLookup_insert (d : Dict) (k v k2 : Str) :
    dictLookup (dictInsert d k v) k2
      = if k = k2 then some v else dictLookup d k2 := by
  induction d with
  | nil => rfl
  | cons p ps ih =>
    by_cases hp : p.1 = k
    · subst hp
      by_cases hk : p.1 = k2
      · simp [dictInsert, dictLookup, hk]
      · simp [dictInsert, dictLookup, hk]
    · by_cases hk2 : p.1 = k2
      · subst hk2
        have hne : ¬ k = p.1 := fun h => hp h.symm
        simp [dictInsert, dictLookup, hp, hne]
      · simp [dictInsert, dictLookup, hp, hk2, ih]

theorem dictInsert_length (d : Dict) (k v : Str) :
    (dictInsert d k v).length ≤ d.length + 1 := by
  induction d with
  | nil => simp [dictInsert]
  | cons p ps ih =>
    by_cases hp : p.1 = k
    · simp [dictInsert, hp]
    · simp only [dictInsert, if_neg hp, List.length_cons]
      omega

theorem pyDictAux_length (ps : List (Str × Str)) (acc : Dict) :
    (pyDictAux acc ps).length ≤ acc.length + ps.length := by
  induction ps generalizing acc with
  | nil => simp [pyDictAux]
  | cons p rest ih =>
    have h1 := ih (dictInsert acc p.1 p.2)
    have h2 := dictInsert_length acc p.1 p.2
    simp only [pyDictAux, List.length_cons]
    omega

theorem dictLookup_pyDictAux (ps : List (Str × Str)) (acc : Dict) (k : Str) :
    dictLookup (pyDictAux acc ps) k
      = match lastMatch ps k with
        | some q => some q.2
        | none => dictLookup acc k := by
  induction ps generalizing acc with
  | nil => rfl
  | cons p rest ih =>
    simp only [pyDictAux, lastMatch, ih (dictInsert acc p.1 p.2)]
    cases hlm : lastMatch rest k with
    | some q => rfl
    | none =>
      simp only [dictLookup_insert]
      by_cases hk : p.1 = k
      · simp [hk]
      · have hne : ¬ p.1 = k := hk
        simp [hne]

theorem lastMatch_key {ps : List (Str × Str)} {k : Str} {q : Str × Str}
    (h : lastMatch ps k = some q) : q.1 = k := by
  induction ps with
  | nil => simp [lastMatch] at h
  | cons p rest ih =>
    simp only [lastMatch] at h
    cases hlm : lastMatch rest k with
    | some q2 =>
      rw [hlm] at h
      cases h
      exact ih hlm
    | none =>
      rw [hlm] at h
      by_cases hk : p.1 = k
      · rw [if_pos hk] at h
        cases h
        exact hk
      · rw [if_neg hk] at h
        cases h

/-! ### Parsed-page model for the HTML extractors

BeautifulSoup is library code; the extractors only inspect the selected
elements, so a page is modelled by exactly the query results the source
reads: the download-button elements of a song page and the table rows of
an album page.  A bs4 tag is unconditionally truthy (its boolean
conversion returns true even for a tag with no contents), and a
subscript access to a missing attribute raises a KeyError; both facts
are modelled explicitly. -/

/-- A selected HTML element: its attribute dictionary. -/
structure Elem where
  attrs : Dict
  deriving DecidableEq

/-- A download-button element of a song page, with its parent anchor
when one exists. -/
structure Button where
  parent : Option Elem
  deriving DecidableEq

/-- A row of the album song table, with the anchor found by the
playlistDownloadSong selector when one exists. -/
structure Row where
  downloadAnchor : Option Elem
  deriving DecidableEq

/-- An album page: the song table rows when the songlist table exists. -/
structure AlbumDom where
  songlist : Option (List Row)
  deriving DecidableEq

def hrefKey : Str := ['h', 'r', 'e', 'f']

def keyErrorMsg : Str := "KeyError".toList

def KHINSIDER_SITE_ROOT : Str := "https://downloads.khinsider.com/".toList

/-- Python truthiness of an existing tag: bs4 defines the boolean
conversion of a tag to be unconditionally true, even for a tag with no
contents, so a selected element is always truthy. -/
def elemTruthy (_e : Elem) : Bool := true

/-- Model of the has_attr test of BeautifulSoup. -/
def has_attr (e : Elem) (k : Str) : Bool := (dictLookup e.attrs k).isSome

/-- Model of a subscript access on a tag: the attribute value when
present, a KeyError otherwise. -/
def getItem (e : Elem) (k : Str) : Except Str Str :=
  match dictLookup e.attrs k with
  | some v => Except.ok v
  | none => Except.error keyErrorMsg

/-- Boolean success test on a fallible result. -/
def okB {α : Type} (x : Except Str α) : Bool :=
  match x with
  | Except.ok _ => true
  | Except.error _ => false

/-! ### Song download page extractor (source lines 50-74) -/

/-- Link comprehension of song_download_page_handler: for each button
whose parent exists (an existing tag is always truthy) and carries
href, read the href of the parent.
The guard makes the subscript access safe, so no error can occur; the
fallible subscript is still modelled faithfully. -/
def button_links (bs : List Button) : Except Str (List Str) :=
  match bs with
  | [] => Except.ok []
  | b :: rest =>
    match b.parent with
    | some p =>
      if elemTruthy p && has_attr p hrefKey then
        match getItem p hrefKey with
        | Except.ok v =>
          match button_links rest with
          | Except.ok vs => Except.ok (v :: vs)
          | Except.error e => Except.error e
        | Except.error e => Except.error e
      else button_links rest
    | none => button_links rest

/-- Pure value of the link comprehension. -/
def song_links_pure (bs : List Button) : List Str :=
  match bs with
  | [] => []
  | b :: rest =>
    match b.parent with
    | some p =>
      if elemTruthy p && has_attr p hrefKey then
        match dictLookup p.attrs hrefKey with
        | some v => v :: song_links_pure rest
        | none => song_links_pure rest
      else song_links_pure rest
    | none => song_links_pure rest

/-- Model of song_download_page_handler: extract the links, derive the
format of each, and build the dict of the zipped pairs. -/
def song_download_page_handler (bs : List Button) : Except Str Dict :=
  match button_links bs with
  | Except.ok links =>
    Except.ok (pyDict ((links.map get_format_from_link).zip links))
  | Except.error e => Except.error e

/-- The dict that song_download_page_handler returns. -/
def song_formats_pure (bs : List Button) : Dict :=
  pyDict (((song_links_pure bs).map get_format_from_link).zip
    (song_links_pure bs))

theorem button_links_ok (bs : List Button) :
    button_links bs = Except.ok (song_links_pure bs) := by
  induction bs with
  | nil => rfl
  | cons b rest ih =>
    cases hp : b.parent with
    | none => simpa [button_links, song_links_pure, hp] using ih
    | some p =>
      by_cases hg : elemTruthy p && has_attr p hrefKey
      · have hs : (dictLookup p.attrs hrefKey).isSome := by
          have := (Bool.and_eq_true _ _).mp hg
          exact this.2
        cases hv : dictLookup p.attrs hrefKey with
        | none => rw [hv] at hs; simp at hs
        | some v =>
          simp [button_links, song_links_pure, hp, hg, getItem, hv, ih]
      · simpa [button_links, song_links_pure, hp, hg] using ih

/-! ### Album page link extractor (source lines 107-137) -/

/-- Row comprehension of album_page_handler: for each row whose anchor
was found, read the href of the anchor.  The guard checks only that the
anchor exists (an existing tag is always truthy, even with no
contents), never that it carries href, so the subscript access can
raise a KeyError. -/
def row_links (rs : List Row) : Except Str (List Str) :=
  match rs with
  | [] => Except.ok []
  | r :: rest =>
    match r.downloadAnchor with
    | some a =>
      if elemTruthy a then
        match getItem a hrefKey with
        | Except.ok v =>
          match row_links rest with
          | Except.ok vs => Except.ok (v :: vs)
          | Except.error e => Except.error e
        | Except.error e => Except.error e
      else row_links rest
    | none => row_links rest

/-- Song-link extraction of album_page_handler: a missing songlist table
and an empty row set both yield the empty list; otherwise every
extracted link is prefixed with the fixed site root. -/
def album_song_links (d : AlbumDom) : Except Str (List Str) :=
  match d.songlist with
  | none => Except.ok []
  | some rows =>
    if rows.length = 0 then Except.ok []
    else
      match row_links rows with
      | Except.ok ls => Except.ok (ls.map (fun x => KHINSIDER_SITE_ROOT ++ x))
      | Except.error e => Except.error e

/-- Decidable hypothesis for extractor tolerance: every matched anchor
of the album page carries the href attribute. -/
def rowHrefOk (r : Row) : Bool :=
  match r.downloadAnchor with
  | some a => has_attr a hrefKey
  | none => true

def albumHrefOk (d : AlbumDom) : Bool :=
  match d.songlist with
  | some rows => rows.all rowHrefOk
  | none => true

theorem row_links_ok (rs : List Row) (h : rs.all rowHrefOk = true) :
    okB (row_links rs) = true := by
  induction rs with
  | nil => rfl
  | cons r rest ih =>
    simp only [List.all_cons, Bool.and_eq_true] at h
    cases ha : r.downloadAnchor with
    | none => simpa [row_links, ha] using ih h.2
    | some a =>
      have hh : has_attr a hrefKey = true := by
        have := h.1
        simpa [rowHrefOk, ha] using this
      have hv : (dictLookup a.attrs hrefKey).isSome := hh
      cases hl : dictLookup a.attrs hrefKey with
      | none => rw [hl] at hv; simp at hv
      | some v =>
        have hrest := ih h.2
        cases hr2 : row_links rest with
        | error e => rw [hr2] at hrest; simp [okB] at hrest
        | ok vs => simp [row_links, ha, elemTruthy, getItem, hl, hr2, okB]

/-- Concrete album page refuting extractor tolerance: one table row
whose matched anchor carries no href attribute (the anchor needs no
contents: a bs4 tag is truthy regardless, so the guard passes). -/
def badAnchorDom : AlbumDom := ⟨some [⟨some ⟨[]⟩⟩]⟩

/-- C2 counterexample: the claim says the extractors never raise, yet on
a row whose download anchor lacks its href attribute the album link
extraction of album_page_handler raises a KeyError (modelled as an error
value), instead of skipping the row. -/
theorem album_extractor_key_error :
    album_song_links badAnchorDom = Except.error keyErrorMsg := by
  rfl

/-- C2 (amended): song_download_page_handler never raises on any input
(missing parents and missing href attributes are skipped by its guard),
and the album link extraction never raises provided every matched
anchor carries the href attribute; a missing songlist table always
yields the empty link list.  Without that proviso the album extraction
can raise: its guard tests only that the anchor was found — a found
anchor is truthy even with no contents — so any matched anchor without
href raises a KeyError, as the counterexample shows. -/
theorem extractors_tolerant_amended (bs : List Button) (d : AlbumDom)
    (h : albumHrefOk d = true) :
    okB (song_download_page_handler bs) = true ∧
      okB (album_song_links d) = true ∧
      album_song_links ⟨none⟩ = Except.ok [] := by
  refine ⟨?_, ?_, rfl⟩
  · rw [song_download_page_handler, button_links_ok]
    rfl
  · cases hd : d.songlist with
    | none => simp [album_song_links, hd, okB]
    | some rows =>
      have hall : rows.all rowHrefOk = true := by
        simpa [albumHrefOk, hd] using h
      by_cases hz : rows.length = 0
      · simp [album_song_links, hd, hz, okB]
      · have hok := row_links_ok rows hall
        cases hr : row_links rows with
        | error e => rw [hr] at hok; simp [okB] at hok
        | ok ls => simp [album_song_links, hd, hz, hr, okB]

/-- Well-formed sample page elements for the C2 witness. -/
def sampleAnchor : Elem := ⟨[(hrefKey, "a/b.mp3".toList)]⟩

def sampleButton : Button := ⟨some sampleAnchor⟩

def sampleDom : AlbumDom := ⟨some [⟨some sampleAnchor⟩]⟩

/-- Witness for C2 (amended) at a concrete one-button song page and a
concrete one-row album page whose anchor carries href. -/
theorem extractors_tolerant_amended_wit :
    okB (song_download_page_handler [sampleButton]) = true ∧
      okB (album_song_links sampleDom) = true ∧
      album_song_links ⟨none⟩ = Except.ok [] :=
  extractors_tolerant_amended [sampleButton] sampleDom (by decide)

/-! ### C5: structure of the format mapping of a song page -/

/-- Last link of the sequence whose derived format is the given key. -/
def lastLinkWith (f : Str → Str) (links : List Str) (k : Str) :
    Option Str :=
  match links with
  | [] => none
  | l :: rest =>
    match lastLinkWith f rest k with
    | some v => some v
    | none => if f l = k then some l else none

theorem zip_map_self (f : Str → Str) (links : List Str) :
    (links.map f).zip links = links.map (fun l => (f l, l)) := by
  induction links with
  | nil => rfl
  | cons l rest ih => simp [ih]

theorem lastMatch_map (f : Str → Str) (links : List Str) (k : Str) :
    lastMatch (links.map (fun l => (f l, l))) k
      = Option.map (fun l => (f l, l)) (lastLinkWith f links k) := by
  induction links with
  | nil => rfl
  | cons l rest ih =>
    simp only [List.map_cons, lastMatch, lastLinkWith, ih]
    cases hlast : lastLinkWith f rest k with
    | some v => rfl
    | none =>
      by_cases hf : f l = k
      · simp [hf]
      · simp [hf]

theorem lastLinkWith_key {f : Str → Str} {links : List Str} {k v : Str}
    (h : lastLinkWith f links k = some v) : f v = k := by
  induction links with
  | nil => simp [lastLinkWith] at h
  | cons l rest ih =>
    simp only [lastLinkWith] at h
    cases hlast : lastLinkWith f rest k with
    | some v2 =>
      rw [hlast] at h
      cases h
      exact ih hlast
    | none =>
      rw [hlast] at h
      by_cases hf : f l = k
      · rw [if_pos hf] at h
        cases h
        exact hf
      · rw [if_neg hf] at h
        cases h

/-- C5: on any song page, the handler succeeds with the dict built by
positionally zipping the derived format tags with the extracted links;
the dict has at most as many entries as matched button-anchor pairs,
looking up a format tag yields exactly the last extracted link whose
derived tag equals it (so a later duplicate overwrites an earlier one),
and every stored value has its key as its own derived lowercased
extension. -/
theorem song_formats_spec (bs : List Button) :
    song_download_page_handler bs = Except.ok (song_formats_pure bs) ∧
      (song_formats_pure bs).length ≤ (song_links_pure bs).length ∧
      (∀ k, dictLookup (song_formats_pure bs) k
        = lastLinkWith get_format_from_link (song_links_pure bs) k) ∧
      (∀ k v, dictLookup (song_formats_pure bs) k = some v →
        get_format_from_link v = k) := by
  have hchar : ∀ k, dictLookup (song_formats_pure bs) k
      = lastLinkWith get_format_from_link (song_links_pure bs) k := by
    intro k
    show dictLookup (pyDict _) k = _
    rw [pyDict, dictLookup_pyDictAux, zip_map_self,
      lastMatch_map get_format_from_link (song_links_pure bs) k]
    cases hlast : lastLinkWith get_format_from_link (song_links_pure bs) k
      with
    | none => rfl
    | some v => rfl
  refine ⟨?_, ?_, hchar, ?_⟩
  · rw [song_download_page_handler, button_links_ok]
    rfl
  · have h1 := pyDictAux_length
      (((song_links_pure bs).map get_format_from_link).zip
        (song_links_pure bs)) []
    have h2 : (((song_links_pure bs).map get_format_from_link).zip
        (song_links_pure bs)).length = (song_links_pure bs).length := by
      rw [zip_map_self, List.length_map]
    simp only [List.length_nil, Nat.zero_add] at h1
    simp only [song_formats_pure, pyDict]
    omega
  · intro k v hv
    rw [hchar k] at hv
    exact lastLinkWith_key hv

/-- Witness for C5: on the one-button sample page the stored value for
the mp3 key is the sample link, whose derived format tag is mp3. -/
theorem song_formats_spec_wit :
    get_format_from_link "a/b.mp3".toList = ['m', 'p', '3'] :=
  (song_formats_spec [sampleButton]).2.2.2 ['m', 'p', '3']
    "a/b.mp3".toList (by decide)

/-! ### Bounded concurrent gather (album_page_row_parser +
asyncio.Semaphore + asyncio.gather, source lines 76-96 and 139-158,
also reused by the download stage at lines 234-261)

Each worker task suspends only at permit acquisition and at its blocking
fetch, so a task is either waiting for a permit, fetching while holding
one, finished with its outcome (permit released), or cancelled at loop
shutdown.  The scheduler is a nondeterministic small-step relation; the
eventual outcome of task i is a fixed function of i, while completion
order is unconstrained.  With the default return_exceptions setting,
gather resolves with the values in input order once every task finished
successfully, and resolves with a worker's exception as soon as that
worker has failed; after an error resolution the loop shutdown of
asyncio.run may cancel any still unfinished task. -/

/-- The four states a worker task can be in. -/
inductive TStat (E A : Type) where
  | waiting
  | fetching
  | done (r : Except E A)
  | cancelled

/-- State of one gather run: the per-task states in input order, and the
resolution of the gather call once it has one. -/
structure GState (E A : Type) where
  tasks : List (TStat E A)
  resolved : Option (Except E (List A))

def isFetching {E A : Type} (t : TStat E A) : Bool :=
  match t with
  | TStat.fetching => true
  | _ => false

/-- Number of tasks currently inside their blocking fetch, which equals
the number of semaphore permits held. -/
def fetchCount {E A : Type} (ts : List (TStat E A)) : Nat :=
  match ts with
  | [] => 0
  | t :: rest => (if isFetching t then 1 else 0) + fetchCount rest

/-- Values of all tasks when every task has finished successfully. -/
def allOkVals {E A : Type} (ts : List (TStat E A)) : Option (List A) :=
  match ts with
  | [] => some []
  | t :: rest =>
    match t with
    | TStat.done (Except.ok a) => (allOkVals rest).map (fun vs => a :: vs)
    | _ => none

/-- Initial state: every task created and scheduled, none started. -/
def initState (E A : Type) (n : Nat) : GState E A :=
  ⟨List.replicate n TStat.waiting, none⟩

/-- One scheduler step of a gather run with the given permit limit and
per-task outcomes. -/
inductive GStep {E A : Type} (limit : Nat) (outcome : Nat → Except E A) :
    GState E A → GState E A → Prop where
  | start (s : GState E A) (i : Nat)
      (hw : s.tasks.get? i = some TStat.waiting)
      (hc : fetchCount s.tasks < limit) :
      GStep limit outcome s ⟨s.tasks.set i TStat.fetching, s.resolved⟩
  | finish (s : GState E A) (i : Nat)
      (hf : s.tasks.get? i = some TStat.fetching) :
      GStep limit outcome s
        ⟨s.tasks.set i (TStat.done (outcome i)), s.resolved⟩
  | resolveOk (s : GState E A) (vs : List A)
      (hn : s.resolved = none)
      (ha : allOkVals s.tasks = some vs) :
      GStep limit outcome s ⟨s.tasks, some (Except.ok vs)⟩
  | resolveErr (s : GState E A) (i : Nat) (e : E)
      (hn : s.resolved = none)
      (hd : s.tasks.get? i = some (TStat.done (Except.error e))) :
      GStep limit outcome s ⟨s.tasks, some (Except.error e)⟩
  | cancel (s : GState E A) (i : Nat) (e : E)
      (hr : s.resolved = some (Except.error e))
      (hni : s.tasks.get? i = some TStat.waiting ∨
        s.tasks.get? i = some TStat.fetching) :
      GStep limit outcome s ⟨s.tasks.set i TStat.cancelled, s.resolved⟩

/-- Reachability of a gather state from the initial state. -/
abbrev Reachable (E A : Type) (n limit : Nat) (outcome : Nat → Except E A)
    (s : GState E A) : Prop :=
  Relation.ReflTransGen (GStep limit outcome) (initState E A n) s

theorem get?_set_self {α : Type} (l : List α) (i : Nat) (a : α)
    (h : i < l.length) : (l.set i a).get? i = some a := by
  induction l generalizing i with
  | nil => simp at h
  | cons x xs ih =>
    cases i with
    | zero => rfl
    | succ n =>
      simp only [List.set, List.get?]
      exact ih n (by simpa using h)

theorem get?_set_ne {α : Type} (l : List α) (i j : Nat) (a : α)
    (h : i ≠ j) : (l.set i a).get? j = l.get? j := by
  induction l generalizing i j with
  | nil => simp
  | cons x xs ih =>
    cases i with
    | zero =>
      cases j with
      | zero => exact absurd rfl h
      | succ m => rfl
    | succ n =>
      cases j with
      | zero => rfl
      | succ m =>
        simp only [List.set, List.get?]
        exact ih n m (fun hnm => h (by rw [hnm]))

theorem fetchCount_set {E A : Type} (ts : List (TStat E A)) (i : Nat)
    (t0 t1 : TStat E A) (h : ts.get? i = some t0) :
    fetchCount (ts.set i t1) + (if isFetching t0 then 1 else 0)
      = fetchCount ts + (if isFetching t1 then 1 else 0) := by
  induction ts generalizing i with
  | nil => simp [List.get?] at h
  | cons x xs ih =>
    cases i with
    | zero =>
      simp only [List.get?] at h
      cases h
      simp only [List.set, fetchCount]
      omega
    | succ n =>
      simp only [List.get?] at h
      have := ih n h
      simp only [List.set, fetchCount]
      omega

theorem allOkVals_stat {E A : Type} {ts : List (TStat E A)} {vs : List A}
    (h : allOkVals ts = some vs) {i : Nat} {t : TStat E A}
    (ht : ts.get? i = some t) : ∃ a, t = TStat.done (Except.ok a) := by
  induction ts generalizing vs i with
  | nil => simp [List.get?] at ht
  | cons x xs ih =>
    cases x with
    | done r =>
      cases r with
      | ok a =>
        simp only [allOkVals, Option.map_eq_some'] at h
        obtain ⟨vs2, hvs2, _⟩ := h
        cases i with
        | zero =>
          simp only [List.get?] at ht
          cases ht
          exact ⟨a, rfl⟩
        | succ n =>
          simp only [List.get?] at ht
          exact ih hvs2 ht
      | error e => simp [allOkVals] at h
    | waiting => simp [allOkVals] at h
    | fetching => simp [allOkVals] at h
    | cancelled => simp [allOkVals] at h

theorem allOkVals_length {E A : Type} {ts : List (TStat E A)}
    {vs : List A} (h : allOkVals ts = some vs) : vs.length = ts.length := by
  induction ts generalizing vs with
  | nil =>
    simp only [allOkVals] at h
    cases h
    rfl
  | cons x xs ih =>
    cases x with
    | done r =>
      cases r with
      | ok a =>
        simp only [allOkVals, Option.map_eq_some'] at h
        obtain ⟨vs2, hvs2, hv⟩ := h
        subst hv
        simp [ih hvs2]
      | error e => simp [allOkVals] at h
    | waiting => simp [allOkVals] at h
    | fetching => simp [allOkVals] at h
    | cancelled => simp [allOkVals] at h

theorem allOkVals_get {E A : Type} {ts : List (TStat E A)} {vs : List A}
    (h : allOkVals ts = some vs) (i : Nat) (a : A)
    (ha : vs.get? i = some a) :
    ts.get? i = some (TStat.done (Except.ok a)) := by
  induction ts generalizing vs i with
  | nil =>
    simp only [allOkVals] at h
    cases h
    simp [List.get?] at ha
  | cons x xs ih =>
    cases x with
    | done r =>
      cases r with
      | ok b =>
        simp only [allOkVals, Option.map_eq_some'] at h
        obtain ⟨vs2, hvs2, hv⟩ := h
        subst hv
        cases i with
        | zero =>
          simp only [List.get?] at ha
          cases ha
          rfl
        | succ n =>
          simp only [List.get?] at ha ⊢
          exact ih hvs2 n ha
      | error e => simp [allOkVals] at h
    | waiting => simp [allOkVals] at h
    | fetching => simp [allOkVals] at h
    | cancelled => simp [allOkVals] at h

/-- Run invariant of the gather model: the task list keeps its length,
at most limit tasks hold a permit, a finished task carries its own
outcome, a successful resolution records exactly the per-task values,
and an error resolution names an error some task actually produced. -/
def GInv {E A : Type} (n limit : Nat) (outcome : Nat → Except E A)
    (s : GState E A) : Prop :=
  s.tasks.length = n ∧
  fetchCount s.tasks ≤ limit ∧
  (∀ i r, s.tasks.get? i = some (TStat.done r) → r = outcome i) ∧
  (∀ vs, s.resolved = some (Except.ok vs) → allOkVals s.tasks = some vs) ∧
  (∀ e, s.resolved = some (Except.error e) →
    ∃ i, s.tasks.get? i = some (TStat.done (Except.error e)))

theorem fetchCount_replicate {E A : Type} (n : Nat) :
    fetchCount (List.replicate n (TStat.waiting : TStat E A)) = 0 := by
  induction n with
  | zero => rfl
  | succ m ih => simpa [List.replicate, fetchCount, isFetching] using ih

theorem get?_replicate {α : Type} {n i : Nat} {a b : α}
    (h : (List.replicate n a).get? i = some b) : b = a := by
  induction n generalizing i with
  | zero => simp [List.replicate, List.get?] at h
  | succ m ih =>
    cases i with
    | zero =>
      simp only [List.replicate, List.get?] at h
      cases h
      rfl
    | succ j =>
      simp only [List.replicate, List.get?] at h
      exact ih h

theorem ginv_init {E A : Type} (n limit : Nat)
    (outcome : Nat → Except E A) :
    GInv n limit outcome (initState E A n) := by
  refine ⟨by simp [initState], ?_, ?_, ?_, ?_⟩
  · simp [initState, fetchCount_replicate]
  · intro i r h
    exact absurd (get?_replicate h) (by simp)
  · intro vs h
    simp [initState] at h
  · intro e h
    simp [initState] at h

theorem get?_lt_length {α : Type} {l : List α} {i : Nat} {a : α}
    (h : l.get? i = some a) : i < l.length := by
  by_contra hge
  rw [List.get?_eq_none.mpr (by omega)] at h
  cases h

theorem ginv_step {E A : Type} {n limit : Nat}
    {outcome : Nat → Except E A} {s s2 : GState E A}
    (hstep : GStep limit outcome s s2) (hinv : GInv n limit outcome s) :
    GInv n limit outcome s2 := by
  obtain ⟨hlen, hfc, hdone, hok, herr⟩ := hinv
  cases hstep with
  | start i hw hc =>
    have hlt : i < s.tasks.length := get?_lt_length hw
    refine ⟨by simpa using hlen, ?_, ?_, ?_, ?_⟩
    · have hset := fetchCount_set s.tasks i TStat.waiting TStat.fetching hw
      simp [isFetching] at hset
      show fetchCount (s.tasks.set i TStat.fetching) ≤ limit
      omega
    · intro j r hj
      by_cases hij : i = j
      · subst hij
        rw [get?_set_self s.tasks i TStat.fetching hlt] at hj
        cases hj
      · rw [get?_set_ne s.tasks i j TStat.fetching hij] at hj
        exact hdone j r hj
    · intro vs hres
      have hall := hok vs hres
      obtain ⟨a, ha⟩ := allOkVals_stat hall hw
      cases ha
    · intro e hres
      obtain ⟨j, hj⟩ := herr e hres
      have hij : i ≠ j := by
        intro hij
        subst hij
        rw [hw] at hj
        cases hj
      exact ⟨j, by rw [get?_set_ne s.tasks i j TStat.fetching hij]; exact hj⟩
  | finish i hf =>
    have hlt : i < s.tasks.length := get?_lt_length hf
    refine ⟨by simpa using hlen, ?_, ?_, ?_, ?_⟩
    · have hset := fetchCount_set s.tasks i TStat.fetching
        (TStat.done (outcome i)) hf
      simp [isFetching] at hset
      show fetchCount (s.tasks.set i (TStat.done (outcome i))) ≤ limit
      omega
    · intro j r hj
      by_cases hij : i = j
      · subst hij
        rw [get?_set_self s.tasks i _ hlt] at hj
        cases hj
        rfl
      · rw [get?_set_ne s.tasks i j _ hij] at hj
        exact hdone j r hj
    · intro vs hres
      have hall := hok vs hres
      obtain ⟨a, ha⟩ := allOkVals_stat hall hf
      cases ha
    · intro e hres
      obtain ⟨j, hj⟩ := herr e hres
      have hij : i ≠ j := by
        intro hij
        subst hij
        rw [hf] at hj
        cases hj
      exact ⟨j, by rw [get?_set_ne s.tasks i j _ hij]; exact hj⟩
  | resolveOk vs hn ha =>
    refine ⟨hlen, hfc, hdone, ?_, ?_⟩
    · intro vs2 hres
      simp only at hres
      cases hres
      exact ha
    · intro e hres
      simp only at hres
      cases hres
  | resolveErr i e hn hd =>
    refine ⟨hlen, hfc, hdone, ?_, ?_⟩
    · intro vs hres
      simp only at hres
      cases hres
    · intro e2 hres
      simp only at hres
      cases hres
      exact ⟨i, hd⟩
  | cancel i e hr hni =>
    have hlt : i < s.tasks.length := by
      cases hni with
      | inl h => exact get?_lt_length h
      | inr h => exact get?_lt_length h
    refine ⟨by simpa using hlen, ?_, ?_, ?_, ?_⟩
    · rcases hni with hw | hf
      · have hset := fetchCount_set s.tasks i TStat.waiting TStat.cancelled hw
        simp [isFetching] at hset
        show fetchCount (s.tasks.set i TStat.cancelled) ≤ limit
        omega
      · have hset := fetchCount_set s.tasks i TStat.fetching TStat.cancelled hf
        simp [isFetching] at hset
        show fetchCount (s.tasks.set i TStat.cancelled) ≤ limit
        omega
    · intro j r hj
      by_cases hij : i = j
      · subst hij
        rw [get?_set_self s.tasks i _ hlt] at hj
        cases hj
      · rw [get?_set_ne s.tasks i j _ hij] at hj
        exact hdone j r hj
    · intro vs hres
      simp only at hres
      rw [hr] at hres
      cases hres
    · intro e2 hres
      simp only at hres
      rw [hr] at hres
      cases hres
      obtain ⟨j, hj⟩ := herr e hr
      have hij : i ≠ j := by
        intro hij
        subst hij
        rcases hni with hw | hf
        · rw [hw] at hj; cases hj
        · rw [hf] at hj; cases hj
      exact ⟨j, by rw [get?_set_ne s.tasks i j _ hij]; exact hj⟩

theorem ginv_reachable {E A : Type} {n limit : Nat}
    {outcome : Nat → Except E A} {s : GState E A}
    (h : Reachable E A n limit outcome s) : GInv n limit outcome s := by
  induction h with
  | refl => exact ginv_init n limit outcome
  | tail hsteps hstep ih => exact ginv_step hstep ih

theorem get?_getD {α : Type} {l : List α} {i : Nat} (d : α)
    (h : i < l.length) : l.get? i = some (l.getD i d) := by
  induction l generalizing i with
  | nil => simp at h
  | cons x xs ih =>
    cases i with
    | zero => rfl
    | succ j =>
      simp only [List.get?, List.getD, List.getElem?_cons_succ]
      have := ih (by simpa using h)
      simpa [List.getD] using this

/-- C7: for every input count n and permit limit below n, every state a
gather run can reach has at most limit tasks inside their blocking
fetch: a worker holds one of the limit semaphore permits for exactly the
span of its fetch, so no schedule exceeds the ceiling. -/
theorem bounded_workers {E A : Type} (n limit : Nat)
    (outcome : Nat → Except E A) (_hlim : limit < n) (s : GState E A)
    (hreach : Reachable E A n limit outcome s) :
    fetchCount s.tasks ≤ limit :=
  (ginv_reachable hreach).2.1

/-- Witness for C7 at two tasks with one permit, at the initial state of
the run. -/
theorem bounded_workers_wit :
    fetchCount (initState Nat Nat 2).tasks ≤ 1 :=
  bounded_workers 2 1 (fun _ => Except.ok 0) (by decide)
    (initState Nat Nat 2) Relation.ReflTransGen.refl

/-- C4: whenever a gather run over the song-page URLs resolves
successfully, the result list has exactly one slot per input URL and
slot i holds precisely the format mapping that song_download_page_handler
parses from the page fetched at URL i — in input order, whatever
completion order the scheduler chose. -/
theorem gather_preserves_order (urls : List Str) (net : Str → List Button)
    (limit : Nat) (s : GState Str Dict) (vs : List Dict)
    (hreach : Reachable Str Dict urls.length limit
      (fun i => song_download_page_handler (net (urls.getD i []))) s)
    (hres : s.resolved = some (Except.ok vs)) :
    vs.length = urls.length ∧
      ∀ i, i < urls.length →
        song_download_page_handler (net (urls.getD i []))
          = Except.ok (vs.getD i []) := by
  obtain ⟨hlen, _, hdone, hok, _⟩ := ginv_reachable hreach
  have hall := hok vs hres
  have hvslen : vs.length = s.tasks.length := allOkVals_length hall
  refine ⟨by rw [hvslen, hlen], ?_⟩
  intro i hi
  have hi2 : i < vs.length := by rw [hvslen, hlen]; exact hi
  have hv : vs.get? i = some (vs.getD i []) := get?_getD [] hi2
  have ht := allOkVals_get hall i (vs.getD i []) hv
  exact (hdone i _ ht).symm

/-- Network model for the C4 witness: every URL yields a page with no
download buttons. -/
def netW : Str → List Button := fun _ => []

/-- Final state of the C4 witness run: the single task finished with the
empty mapping and gather resolved with the singleton result list. -/
def okRunState : GState Str Dict :=
  ⟨[TStat.done (Except.ok [])], some (Except.ok [[]])⟩

/-- Outcome function of the C4 witness run. -/
def outW : Nat → Except Str Dict :=
  fun i => song_download_page_handler
    (netW (([(['u'] : Str)] : List Str).getD i []))

theorem reach_ok_trace :
    Reachable Str Dict ([(['u'] : Str)] : List Str).length 1
      (fun i => song_download_page_handler
        (netW (([(['u'] : Str)] : List Str).getD i []))) okRunState := by
  have h1 : GStep 1 outW (initState Str Dict 1) ⟨[TStat.fetching], none⟩ :=
    GStep.start (initState Str Dict 1) 0 rfl (by decide)
  have h2 : GStep 1 outW ⟨[TStat.fetching], none⟩
      ⟨[TStat.done (Except.ok [])], none⟩ :=
    GStep.finish ⟨[TStat.fetching], none⟩ 0 rfl
  have h3 : GStep 1 outW ⟨[TStat.done (Except.ok [])], none⟩ okRunState :=
    GStep.resolveOk ⟨[TStat.done (Except.ok [])], none⟩ [[]] rfl rfl
  show Relation.ReflTransGen (GStep 1 outW) (initState Str Dict 1) okRunState
  exact Relation.ReflTransGen.head h1
    (Relation.ReflTransGen.head h2
      (Relation.ReflTransGen.head h3 Relation.ReflTransGen.refl))

/-- Witness for C4, projected at slot zero of the concrete
one-URL run that resolved successfully. -/
theorem gather_preserves_order_wit :
    song_download_page_handler
        (netW (([(['u'] : Str)] : List Str).getD 0 []))
      = Except.ok (([[ ]] : List Dict).getD 0 []) :=
  (gather_preserves_order [['u']] netW 1 okRunState [[]]
    reach_ok_trace rfl).2 0 (by decide)

/-- Error message of the content-length check in download_single_song. -/
def clMsg : Str := "Content length mismatch.".toList

/-- Outcome function of the C3 run: worker zero fails its content-length
check, worker one would succeed. -/
def outcomeC3 : Nat → Except Str Str :=
  fun i => if i = 0 then Except.error clMsg else Except.ok ['s']

/-- Reachable final state of the C3 run: gather has resolved with worker
zero's error while worker one was cancelled before finishing. -/
def errorRunState : GState Str Str :=
  ⟨[TStat.done (Except.error clMsg), TStat.cancelled],
    some (Except.error clMsg)⟩

theorem reach_err_trace :
    Reachable Str Str 2 1 outcomeC3 errorRunState := by
  have h1 : GStep 1 outcomeC3 (initState Str Str 2)
      ⟨[TStat.fetching, TStat.waiting], none⟩ :=
    GStep.start (initState Str Str 2) 0 rfl (by decide)
  have h2 : GStep 1 outcomeC3 ⟨[TStat.fetching, TStat.waiting], none⟩
      ⟨[TStat.done (Except.error clMsg), TStat.waiting], none⟩ :=
    GStep.finish ⟨[TStat.fetching, TStat.waiting], none⟩ 0 rfl
  have h3 : GStep 1 outcomeC3
      ⟨[TStat.done (Except.error clMsg), TStat.waiting], none⟩
      ⟨[TStat.done (Except.error clMsg), TStat.waiting],
        some (Except.error clMsg)⟩ :=
    GStep.resolveErr
      ⟨[TStat.done (Except.error clMsg), TStat.waiting], none⟩ 0 clMsg
      rfl rfl
  have h4 : GStep 1 outcomeC3
      ⟨[TStat.done (Except.error clMsg), TStat.waiting],
        some (Except.error clMsg)⟩ errorRunState :=
    GStep.cancel
      ⟨[TStat.done (Except.error clMsg), TStat.waiting],
        some (Except.error clMsg)⟩ 1 clMsg rfl (Or.inl rfl)
  exact Relation.ReflTransGen.head h1
    (Relation.ReflTransGen.head h2
      (Relation.ReflTransGen.head h3
        (Relation.ReflTransGen.head h4 Relation.ReflTransGen.refl)))

/-- C3 counterexample: in a two-song download with one permit where song
zero fails its content-length check, the run can reach a state in which
gather has already propagated the failure while the sibling task was
cancelled without ever completing or writing its file — refuting the
claim that all outcomes are aggregated, that the failure surfaces only
after all in-flight work drains, and that scheduled siblings always
complete. -/
theorem gather_orphans_sibling :
    Reachable Str Str 2 1 outcomeC3 errorRunState ∧
      errorRunState.resolved = some (Except.error clMsg) ∧
      errorRunState.tasks.get? 1 = some TStat.cancelled :=
  ⟨reach_err_trace, rfl, rfl⟩

/-- C3 (amended): with the default gather of the source, a failing
download makes gather propagate immediately an error some worker
actually produced; outcomes are not aggregated and unfinished siblings
may be cancelled at loop shutdown, but every task that did finish
successfully carries its genuine outcome (its written file persists). -/
theorem gather_error_propagation {E A : Type} (n limit : Nat)
    (outcome : Nat → Except E A) (s : GState E A) (e : E)
    (hreach : Reachable E A n limit outcome s)
    (hres : s.resolved = some (Except.error e)) :
    (∃ i, s.tasks.get? i = some (TStat.done (Except.error e))) ∧
      ∀ i a, s.tasks.get? i = some (TStat.done (Except.ok a)) →
        outcome i = Except.ok a := by
  obtain ⟨_, _, hdone, _, herr⟩ := ginv_reachable hreach
  exact ⟨herr e hres, fun i a h => (hdone i _ h).symm⟩

/-- Witness for C3 (amended) at the concrete error run. -/
theorem gather_error_propagation_wit :
    (∃ i, errorRunState.tasks.get? i
        = some (TStat.done (Except.error clMsg))) ∧
      ∀ i a, errorRunState.tasks.get? i
          = some (TStat.done (Except.ok a)) →
        outcomeC3 i = Except.ok a :=
  gather_error_propagation 2 1 outcomeC3 errorRunState clMsg
    reach_err_trace rfl

/-! ### Coordinator control flow after album parsing (main, source
lines 223-261, and download_single_song, lines 160-198)

The network is a parameter mapping a URL to its response; URL decoding
(urllib.parse.unquote, library code) is likewise a parameter.  The
observable effects of the coordinator are recorded as an event list:
process exit, directory creation, file fetches, file openings and file
writes.  Download events are listed in input order; the claims proved
below do not depend on the interleaving the real scheduler chooses. -/

/-- A fetched response: the parsed Content-Length header when the
response carries one, and the body bytes. -/
structure Response where
  contentLength : Option Nat
  body : List Nat

/-- Observable coordinator effects. -/
inductive MainEv where
  | exited (code : Nat)
  | mkdirEv (dir : Str)
  | fetched (url : Str)
  | openedFile (path : Str)
  | wroteFile (path : Str) (bytes : List Nat)
  deriving DecidableEq

/-- Model of os.path.basename: the suffix after the last slash. -/
def basename (s : Str) : Str :=
  match s with
  | [] => []
  | c :: rest => if c = '/' ∧ ¬ ('/' ∈ rest) then rest
    else if '/' ∈ (c :: rest) then basename rest
    else c :: rest

/-- Model of download_single_song: derive the decoded and sanitized file
name, fetch the bytes, and either fail the enabled content-length check
before opening the file, or open and write the file and return its
path.  The name computation and the fetch precede the check; no file
event is emitted on the failing branch. -/
def download_single_song (unquote : Str → Str) (net : Str → Response)
    (song_url dir : Str) (content_length_check : Bool) :
    List MainEv × Except Str Str :=
  let song_name := file_name_cleaner (unquote (basename song_url))
    default_replace
  let resp := net song_url
  let target := pathJoin dir song_name
  let writeRun : List MainEv × Except Str Str :=
    ([MainEv.fetched song_url, MainEv.openedFile target,
      MainEv.wroteFile target resp.body], Except.ok target)
  if content_length_check then
    match resp.contentLength with
    | some content_length =>
      if content_length ≠ resp.body.length then
        ([MainEv.fetched song_url], Except.error clMsg)
      else writeRun
    | none => writeRun
  else writeRun

/-- Validation loop of main: walk the parsed songs in order and report
exit code one at the first song whose mapping misses the requested
format. -/
def validate_loop (songs : List Dict) (fmt : Str) : Option Nat :=
  match songs with
  | [] => none
  | song :: rest =>
    if dictContains song fmt then validate_loop rest fmt else some 1

/-- Model of main after album parsing: validate the requested format
against every song mapping, exiting with code one on a failure; then
create the album directory and run the download stage with the
content-length check enabled over the target links. -/
def main_after_parse (unquote : Str → Str) (net : Str → Response)
    (title : Str) (songs : List Dict) (fmt saveDir : Str) : List MainEv :=
  match validate_loop songs fmt with
  | some code => [MainEv.exited code]
  | none =>
    let albumDir := album_dir_of saveDir title
    MainEv.mkdirEv albumDir ::
      (songs.map (fun song =>
        (download_single_song unquote net (dictGetD song fmt) albumDir
          true).1)).flatten
where
  /-- Subscript access of main on a validated song mapping. -/
  dictGetD (song : Dict) (fmt : Str) : Str :=
    match dictLookup song fmt with
    | some v => v
    | none => []

theorem validate_loop_some {songs : List Dict} {fmt : Str}
    (h : ∃ song ∈ songs, dictContains song fmt = false) :
    validate_loop songs fmt = some 1 := by
  induction songs with
  | nil => obtain ⟨song, hmem, _⟩ := h; cases hmem
  | cons s rest ih =>
    obtain ⟨song, hmem, hmiss⟩ := h
    by_cases hc : dictContains s fmt
    · rcases List.mem_cons.mp hmem with heq | hmem2
      · subst heq
        rw [hc] at hmiss
        cases hmiss
      · simpa [validate_loop, hc] using ih ⟨song, hmem2, hmiss⟩
    · simp [validate_loop, hc]

/-- C6: if any parsed song mapping lacks the requested format tag, the
coordinator exits with the non-zero code one before the download stage:
its whole event trace is that single exit, so no directory is created,
no file is fetched, none is opened and none is written. -/
theorem format_validation_aborts (unquote : Str → Str)
    (net : Str → Response) (title : Str) (songs : List Dict)
    (fmt saveDir : Str)
    (h : ∃ song ∈ songs, dictContains song fmt = false) :
    main_after_parse unquote net title songs fmt saveDir
        = [MainEv.exited 1] ∧
      ∀ ev ∈ main_after_parse unquote net title songs fmt saveDir,
        (∀ u, ev ≠ MainEv.fetched u) ∧ (∀ p, ev ≠ MainEv.openedFile p) ∧
          (∀ p b, ev ≠ MainEv.wroteFile p b) := by
  have htrace : main_after_parse unquote net title songs fmt saveDir
      = [MainEv.exited 1] := by
    rw [main_after_parse, validate_loop_some h]
  refine ⟨htrace, ?_⟩
  intro ev hev
  rw [htrace] at hev
  simp only [List.mem_singleton] at hev
  subst hev
  refine ⟨?_, ?_, ?_⟩
  · intro u hu; cases hu
  · intro p hp; cases hp
  · intro p b hw; cases hw

/-- Witness for C6 at a single song with an empty format mapping. -/
theorem format_validation_aborts_wit :
    main_after_parse (fun s => s) (fun _ => ⟨none, []⟩) ['t']
        [([] : Dict)] ['m', 'p', '3'] ['.']
      = [MainEv.exited 1] ∧
      ∀ ev ∈ main_after_parse (fun s => s) (fun _ => ⟨none, []⟩) ['t']
          [([] : Dict)] ['m', 'p', '3'] ['.'],
        (∀ u, ev ≠ MainEv.fetched u) ∧ (∀ p, ev ≠ MainEv.openedFile p) ∧
          (∀ p b, ev ≠ MainEv.wroteFile p b) :=
  format_validation_aborts (fun s => s) (fun _ => ⟨none, []⟩) ['t']
    [([] : Dict)] ['m', 'p', '3'] ['.'] ⟨[], by simp, rfl⟩

/-- C10: when the content-length check is enabled, the response carries
a Content-Length header and that header disagrees with the actual byte
count of the body, download_single_song raises the mismatch error after
its fetch but before opening the file: its event trace holds no file
opening and no file write, so no file is created or modified for that
song. -/
theorem content_length_mismatch_no_write (unquote : Str → Str)
    (net : Str → Response) (song_url dir : Str) (cl : Nat)
    (hcl : (net song_url).contentLength = some cl)
    (hne : cl ≠ (net song_url).body.length) :
    download_single_song unquote net song_url dir true
        = ([MainEv.fetched song_url], Except.error clMsg) ∧
      ∀ ev ∈ (download_single_song unquote net song_url dir true).1,
        (∀ p, ev ≠ MainEv.openedFile p) ∧
          ∀ p b, ev ≠ MainEv.wroteFile p b := by
  have htrace : download_single_song unquote net song_url dir true
      = ([MainEv.fetched song_url], Except.error clMsg) := by
    rw [download_single_song]
    simp [hcl, hne]
  refine ⟨htrace, ?_⟩
  intro ev hev
  rw [htrace] at hev
  simp only [List.mem_singleton] at hev
  subst hev
  refine ⟨?_, ?_⟩
  · intro p hp; cases hp
  · intro p b hw; cases hw

/-- Witness for C10 at a concrete response declaring five bytes while
the body is empty. -/
theorem content_length_mismatch_no_write_wit :
    download_single_song (fun s => s) (fun _ => ⟨some 5, []⟩)
        "a/b.mp3".toList ['.'] true
      = ([MainEv.fetched "a/b.mp3".toList], Except.error clMsg) ∧
      ∀ ev ∈ (download_single_song (fun s => s) (fun _ => ⟨some 5, []⟩)
          "a/b.mp3".toList ['.'] true).1,
        (∀ p, ev ≠ MainEv.openedFile p) ∧
          ∀ p b, ev ≠ MainEv.wroteFile p b :=
  content_length_mismatch_no_write (fun s => s) (fun _ => ⟨some 5, []⟩)
    "a/b.mp3".toList ['.'] 5 rfl (by decide)
